import Mathlib

/-!
# Verification of the `bloomfilter` Go package

A shallow embedding of the `moonrhythm/bloomfilter` repository
(`bloomfilter.go`, `fileio.go`, and the construction / binary-codec file)
into Lean 4, together with theorems settling the specification claims.

Conventions of the embedding:
* Go `uint64` values are `Nat`; an explicit `% 2 ^ 64` appears exactly where
  the Go code can overflow (the `n` counter increments and sums).
* A `*Filter` receiver that Go mutates becomes explicit state passing:
  a method returns the new state of every filter it may write to, and
  returns the argument filters unchanged when the Go code only reads them.
* Fallible Go functions (returning `error`) become `Except BFError _` or
  carry an `Option BFError` component.
* Byte streams (`io.Reader`) are `List Nat` of byte values, consumed from
  the front; `RState` additionally tracks the bytes fed to the running
  digest and the total byte count, mirroring the `hashingReader` wrapper.
* The SHA-384 digest from `crypto/sha512` is an external library function;
  it is abstracted as an explicit parameter `H : List Nat → List Nat`
  (every theorem about the codec holds for an arbitrary digest function).
-/

namespace Bloomfilter

/-- `MMin` is the minimum Bloom filter bits count (source constant). -/
def MMin : Nat := 2

/-- `KMin` is the minimum number of keys (source constant). -/
def KMin : Nat := 1

/-- Error values of the package.  The three construction errors are the
`fmt.Errorf` values of `newBits`, `newKeysBlank` and `newKeysCopy`
(the spec groups them as `ConfigurationError`); `formatK`/`formatM` model
`errK()`/`errM()`, `integrity` models `errHash()`, `incompatible` models
`errIncompatibleBloomFilters()`, and `readFailure` stands for any error
propagated from the underlying reader (EOF and friends). -/
inductive BFError where
  | mBelowMin
  | kBelowMin
  | keysNotUnique
  | incompatible
  | formatK
  | formatM
  | integrity
  | readFailure
deriving DecidableEq

/-- Modelled from the spec (§7): the construction-time error kinds are
grouped as `ConfigurationError`. -/
def isConfigurationError : BFError → Bool
  | .mBelowMin => true
  | .kBelowMin => true
  | .keysNotUnique => true
  | _ => false

/-- The `Filter` struct (`bloomfilter.go`): bit words, position keys,
bit width `m`, element count `n`.  The `sync.RWMutex` field has no
functional content and is omitted. -/
structure Filter where
  bits : List Nat
  keys : List Nat
  m : Nat
  n : Nat
deriving DecidableEq

/-- The zero value `new(Filter)` (nil slices, zero fields). -/
def emptyFilter : Filter := { bits := [], keys := [], m := 0, n := 0 }

/-- Reading bit `i` of the packed bit array:
`(f.bits[i>>6] >> uint(i&0x3f)) & 1` from `Contains`/`ContainsHash`. -/
def getBit (bits : List Nat) (i : Nat) : Nat :=
  (bits.getD (i >>> 6) 0 >>> (i &&& 63)) &&& 1

/-- Setting bit `i` of the packed bit array:
`f.bits[i>>6] |= 1 << uint(i&0x3f)` from `Add`/`AddHash`. -/
def setBit (bits : List Nat) (i : Nat) : List Nat :=
  bits.set (i >>> 6) (bits.getD (i >>> 6) 0 ||| (1 <<< (i &&& 63)))

/-- `AddHash` (`bloomfilter.go`): for each key, set bit
`(hash ^ key) % m`; then `f.n++` (a `uint64` increment, hence mod `2^64`). -/
def AddHash (f : Filter) (hash : Nat) : Filter :=
  { f with
    bits := f.keys.foldl (fun bs key => setBit bs ((hash ^^^ key) % f.m)) f.bits
    n := (f.n + 1) % 2 ^ 64 }

/-- `Add` (`bloomfilter.go`): identical loop to `AddHash`, with
`hash = v.Sum64()`.  The argument `v` stands for the 64-bit hash the
caller-supplied `hash.Hash64` value produces. -/
def Add (f : Filter) (v : Nat) : Filter :=
  { f with
    bits := f.keys.foldl (fun bs key => setBit bs ((v ^^^ key) % f.m)) f.bits
    n := (f.n + 1) % 2 ^ 64 }

/-- Modelled from the spec: the helper `uint64ToBool` is not among the
provided source files; `Contains` documents `false`/`true` as definite
non-membership / possible membership and the accumulator `r` is the AND
of the tested bits, so the conversion is `x != 0`. -/
def uint64ToBool (x : Nat) : Bool := x != 0

/-- The `Contains`/`ContainsHash` loop (`bloomfilter.go`):
`for n := 0; n < len(keys) && r != 0; n++ { r &= bit }` — the guard
`r != 0` short-circuits as soon as a tested bit is 0. -/
def containsLoop (m hash : Nat) (bits : List Nat) : List Nat → Nat → Nat
  | [], r => r
  | key :: ks, r =>
    if r = 0 then r
    else containsLoop m hash bits ks (r &&& getBit bits ((hash ^^^ key) % m))

/-- `ContainsHash` (`bloomfilter.go`). -/
def ContainsHash (f : Filter) (hash : Nat) : Bool :=
  uint64ToBool (containsLoop f.m hash f.bits f.keys 1)

/-- `Contains` (`bloomfilter.go`): identical loop with `hash = v.Sum64()`. -/
def Contains (f : Filter) (v : Nat) : Bool :=
  uint64ToBool (containsLoop f.m v f.bits f.keys 1)

/-- The same loop without the `r != 0` early exit: every one of the `k`
positions is tested.  This is the spec-side comparison point for the
claim that short-circuiting never changes the result. -/
def containsAllLoop (m hash : Nat) (bits : List Nat) : List Nat → Nat → Nat
  | [], r => r
  | key :: ks, r => containsAllLoop m hash bits ks (r &&& getBit bits ((hash ^^^ key) % m))

/-- `ContainsHash` as it would behave with all `k` positions always
tested (no short circuit). -/
def ContainsHashAllPositions (f : Filter) (hash : Nat) : Bool :=
  uint64ToBool (containsAllLoop f.m hash f.bits f.keys 1)

/-- Modelled from the spec (§3): `IsCompatible` is not among the provided
source files; compatibility is equal `bitWidth` AND identical
`positionKeys` sequence (same length, same values, same order). -/
def IsCompatible (f f2 : Filter) : Bool :=
  f.m == f2.m && f.keys == f2.keys

/-- The receiver-side word update of `UnionInPlace`:
`for i, bitword := range f2.bits { f.bits[i] |= bitword }`. -/
def unionWords (a b : List Nat) : List Nat :=
  a.zipWith (· ||| ·) b ++ a.drop b.length

/-- `UnionInPlace` (`bloomfilter.go`).  Returns the final states of the
receiver and of the argument: the Go code never writes to `f2`, so the
second component is always the unchanged `f2`; on the incompatibility
error it returns before touching any state. -/
def UnionInPlace (f f2 : Filter) : Except BFError (Filter × Filter) :=
  if IsCompatible f f2 then
    .ok ({ f with
            bits := unionWords f.bits f2.bits
            n := (f.n + f2.n) % 2 ^ 64 },
         f2)
  else
    .error .incompatible

/-- `uniqueKeys` (construction file): the nested loop testing every pair
`keys[j], keys[i]` with `i > j` for equality. -/
def uniqueKeys : List Nat → Bool
  | [] => true
  | key :: ks => ks.all (fun x => x != key) && uniqueKeys ks

/-- `newBits` (construction file): fails when `m < MMin`, else a zeroed
word slice of length `(m+63)/64`. -/
def newBits (m : Nat) : Except BFError (List Nat) :=
  if m < MMin then .error .mBelowMin
  else .ok (List.replicate ((m + 63) / 64) 0)

/-- `newKeysBlank` (construction file): fails when `k < KMin`. -/
def newKeysBlank (k : Nat) : Except BFError (List Nat) :=
  if k < KMin then .error .kBelowMin
  else .ok (List.replicate k 0)

/-- `newKeysCopy` (construction file): uniqueness check, then a blank
slice of the same length, then `copy(keys, origKeys)` which reproduces
`origKeys` exactly. -/
def newKeysCopy (origKeys : List Nat) : Except BFError (List Nat) :=
  if !uniqueKeys origKeys then .error .keysNotUnique
  else
    match newKeysBlank origKeys.length with
    | .error e => .error e
    | .ok _ => .ok origKeys

/-- `NewWithKeys` (construction file): `newBits` then `newKeysCopy`,
assembling the filter with `n = 0`. -/
def NewWithKeys (m : Nat) (origKeys : List Nat) : Except BFError Filter :=
  match newBits m with
  | .error e => .error e
  | .ok bits =>
    match newKeysCopy origKeys with
    | .error e => .error e
    | .ok keys => .ok { m := m, n := 0, bits := bits, keys := keys }

/-- `New` (construction file): `NewWithKeys(m, newRandKeys(m, k))`.
The CSPRNG draw `newRandKeys` is modelled as an oracle argument
`randKeys` of length `k` (theorems carry that length hypothesis). -/
def New (m k : Nat) (randKeys : List Nat) : Except BFError Filter :=
  NewWithKeys m randKeys

/-- The output-side word update of `Union`:
`for i, bitword := range f2.bits { out.bits[i] = f.bits[i] | bitword }`
leaving the remaining words of `out` untouched. -/
def unionOutWords (out a b : List Nat) : List Nat :=
  a.zipWith (· ||| ·) b ++ out.drop b.length

/-- `Union` (`bloomfilter.go`): compatibility check, `NewCompatible`
(which is `NewWithKeys(f.m, f.keys)`), OR of both operands into the new
filter, sum of counters.  Returns `(out, f, f2)`: the Go code only reads
`f` and `f2`, so both come back unchanged. -/
def Union (f f2 : Filter) : Except BFError (Filter × Filter × Filter) :=
  if IsCompatible f f2 then
    match NewWithKeys f.m f.keys with
    | .error e => .error e
    | .ok out =>
      .ok ({ out with
              bits := unionOutWords out.bits f.bits f2.bits
              n := (f.n + f2.n) % 2 ^ 64 },
           f, f2)
  else
    .error .incompatible

/-- One operation on the filter a caller is tracking, for stating
preservation along an arbitrary subsequent call sequence: an `AddHash`
(or `Add`, which performs the identical update), a `UnionInPlace` with
another filter, or a `Union` with another filter after which the caller
continues with the fresh output filter. -/
inductive FOp where
  | addHash : Nat → FOp
  | unionInPlaceWith : Filter → FOp
  | unionWith : Filter → FOp

/-- Applying one operation: a failed (incompatible) union leaves the
receiver unchanged, exactly as the Go error path does; a successful
`Union` continues with the returned output filter. -/
def applyFOp (f : Filter) : FOp → Filter
  | .addHash h => AddHash f h
  | .unionInPlaceWith g =>
    match UnionInPlace f g with
    | .ok p => p.1
    | .error _ => f
  | .unionWith g =>
    match Union f g with
    | .ok t => t.1
    | .error _ => f

/-- Applying a sequence of operations in order. -/
def applyFOps (f : Filter) (ops : List FOp) : Filter :=
  ops.foldl applyFOp f

/-- Little-endian byte encoding of the low `c` bytes of `x`
(`binary.LittleEndian` layout). -/
def toLE : Nat → Nat → List Nat
  | 0, _ => []
  | c + 1, x => x % 256 :: toLE c (x / 256)

/-- The 8-byte little-endian encoding of a `uint64`. -/
def toLE64 (x : Nat) : List Nat := toLE 8 x

/-- `binary.LittleEndian.Uint64`-style decoding of a little-endian byte
list (byte 0 least significant). -/
def fromLE : List Nat → Nat
  | [] => 0
  | b :: bs => b + 256 * fromLE bs

/-- The state of the `hashingReader` wrapper (`UnmarshalFromReader`):
the bytes still unread, the bytes fed to the running SHA-384 hasher so
far, and the total byte count `tot`. -/
structure RState where
  remaining : List Nat
  hashed : List Nat
  tot : Nat
deriving DecidableEq

/-- A full read of `count` bytes through the `hashingReader`
(`binary.Read` / `io.ReadFull` semantics): succeeds exactly when enough
bytes remain, feeding them to the hasher and advancing `tot`. -/
def readFull (count : Nat) (st : RState) : Option (List Nat × RState) :=
  if count ≤ st.remaining.length then
    some (st.remaining.take count,
      ⟨st.remaining.drop count,
       st.hashed ++ st.remaining.take count,
       st.tot + count⟩)
  else none

/-- The reader state after a failed full read: everything available was
consumed and counted before the EOF surfaced. -/
def failState (st : RState) : RState :=
  ⟨[], st.hashed, st.tot + st.remaining.length⟩

/-- `unmarshalBinaryHeader` (codec file): read `k`, reject `k < KMin`
with `errK()`, read `n`, read `m`, reject `m < MMin` with `errM()`.
Returns the header values even on an error, as the Go multiple-return
does (unread fields are zero). -/
def unmarshalBinaryHeader (st : RState) : Nat × Nat × Nat × RState × Option BFError :=
  match readFull 8 st with
  | none => (0, 0, 0, failState st, some .readFailure)
  | some (kb, st1) =>
    let k := fromLE kb
    if k < KMin then (k, 0, 0, st1, some .formatK)
    else
      match readFull 8 st1 with
      | none => (k, 0, 0, failState st1, some .readFailure)
      | some (nb, st2) =>
        let n := fromLE nb
        match readFull 8 st2 with
        | none => (k, n, 0, failState st2, some .readFailure)
        | some (mb, st3) =>
          let m := fromLE mb
          if m < MMin then (k, n, m, st3, some .formatM)
          else (k, n, m, st3, none)

/-- Decoding `count` consecutive little-endian 64-bit words from a byte
list (`binary.Read` into a `[]uint64` of length `count`). -/
def decodeWords : Nat → List Nat → List Nat
  | 0, _ => []
  | c + 1, bs => fromLE (bs.take 8) :: decodeWords c (bs.drop 8)

/-- `unmarshalBinaryKeys` (codec file): one `binary.Read` into a slice of
`k` words — a full read of `8*k` bytes then a word-wise decode; on a read
error the freshly allocated slice is still all zeros. -/
def unmarshalBinaryKeys (st : RState) (k : Nat) : List Nat × RState × Option BFError :=
  match readFull (8 * k) st with
  | none => (List.replicate k 0, failState st, some .readFailure)
  | some (bytes, st1) => (decodeWords k bytes, st1, none)

/-- The word loop of `unmarshalBinaryBits`: each iteration issues one
`r.Read(bs)` on the shared 8-byte buffer `bs` (initially zero).  A
`bytes.Buffer`-style read returns EOF only on an empty stream and
otherwise hands over up to 8 bytes, leaving the tail of `bs` stale; the
`hashingReader` then hashes the whole 8-byte buffer.  Words not reached
before an error keep their zero allocation. -/
def readBitsLoop : Nat → List Nat → RState → List Nat × RState × Option BFError
  | 0, _, st => ([], st, none)
  | c + 1, bs, st =>
    if st.remaining.isEmpty then (List.replicate (c + 1) 0, st, some .readFailure)
    else
      let taken := st.remaining.take 8
      let bs1 := taken ++ bs.drop taken.length
      let st1 : RState := ⟨st.remaining.drop 8, st.hashed ++ bs1, st.tot + taken.length⟩
      let rest := readBitsLoop c bs1 st1
      (fromLE bs1 :: rest.1, rest.2)

/-- `unmarshalBinaryBits` (codec file): allocate via `newBits m`, then
read the words one by one. -/
def unmarshalBinaryBits (st : RState) (m : Nat) : List Nat × RState × Option BFError :=
  match newBits m with
  | .error e => ([], st, some e)
  | .ok bits => readBitsLoop bits.length (List.replicate 8 0) st

section Codec

variable (H : List Nat → List Nat)

/-- `UnmarshalFromReader` (codec file), parametric in the digest function
`H` standing for SHA-384.  Mirrors the Go control flow exactly: the
header values are assigned into the receiver even when the header
reports an error, the keys and bits are assigned as soon as their reads
return, the running digest is finalized before the stored digest is
read, and a digest mismatch yields `errHash()`.  Returns the (possibly
partially overwritten) receiver, `buf.tot`, and the error. -/
def UnmarshalFromReader (f : Filter) (input : List Nat) : Filter × Nat × Option BFError :=
  let st0 : RState := ⟨input, [], 0⟩
  match unmarshalBinaryHeader st0 with
  | (k, n, m, st1, e1) =>
    let f1 := { f with n := n, m := m }
    match e1 with
    | some e => (f1, st1.tot, some e)
    | none =>
      match unmarshalBinaryKeys st1 k with
      | (keys, st2, e2) =>
        let f2 := { f1 with keys := keys }
        match e2 with
        | some e => (f2, st2.tot, some e)
        | none =>
          match unmarshalBinaryBits st2 m with
          | (bits, st3, e3) =>
            let f3 := { f2 with bits := bits }
            match e3 with
            | some e => (f3, st3.tot, some e)
            | none =>
              let gotHash := H st3.hashed
              match readFull 48 st3 with
              | none => (f3, (failState st3).tot, some .readFailure)
              | some (expHash, st4) =>
                if gotHash = expHash then (f3, st4.tot, none)
                else (f3, st4.tot, some .integrity)

/-- Modelled from the spec (§4.3): `MarshallToWriter` is not among the
provided source files; the layout is `k`, `n`, `m` as little-endian
64-bit fields, the keys in order, the bit words in order, then the
48-byte digest of every byte above, with the digest function abstracted
as `H`. -/
def MarshallToWriter (f : Filter) : List Nat :=
  let payload := toLE64 f.keys.length ++ toLE64 f.n ++ toLE64 f.m
      ++ f.keys.flatMap toLE64 ++ f.bits.flatMap toLE64
  payload ++ H payload

/-- Package-level `ReadFrom` (`fileio.go`): wrap the stream in a gzip
reader (modelled as the abstract decompressor `gunzip`, whose failure is
`gzip.NewReader`/read failure), then `UnmarshalFromReader` into a fresh
`new(Filter)`.  On any error the Go code returns `(nil, -1, err)`. -/
def ReadFrom (gunzip : List Nat → Except BFError (List Nat))
    (input : List Nat) : Except BFError (Filter × Nat) :=
  match gunzip input with
  | .error e => .error e
  | .ok raw =>
    match UnmarshalFromReader H emptyFilter raw with
    | (f2, n, some e) => .error e
    | (f2, n, none) => .ok (f2, n)

/-- Method `Filter.ReadFrom` (`fileio.go`): run the package-level
`ReadFrom` first; only if it fully succeeded, replace the receiver's
`m`, `n`, `bits`, `keys` with the freshly decoded filter's fields.
Returns `(n, err, final receiver state)`; the Go error path returns
`(-1, err)` without touching the receiver. -/
def FilterReadFrom (gunzip : List Nat → Except BFError (List Nat))
    (f : Filter) (input : List Nat) : Int × Option BFError × Filter :=
  match ReadFrom H gunzip input with
  | .error e => (-1, some e, f)
  | .ok (f2, n) => ((n : Int), none, { f with m := f2.m, n := f2.n, bits := f2.bits, keys := f2.keys })

end Codec

/-- Well-formedness of a filter, as established by construction: bit
width within `uint64` and at least `MMin`, counter within `uint64`, a
nonempty duplicate-free key list of `uint64` values, `uint64` bit words,
and the word count `(m+63)/64` that `newBits` allocates. -/
def Wf (f : Filter) : Prop :=
  MMin ≤ f.m ∧ f.m < 2 ^ 64 ∧ f.n < 2 ^ 64 ∧
  f.keys ≠ [] ∧ f.keys.Nodup ∧
  (∀ x ∈ f.keys, x < 2 ^ 64) ∧ (∀ w ∈ f.bits, w < 2 ^ 64) ∧
  f.bits.length = (f.m + 63) / 64 ∧ f.keys.length < 2 ^ 64

instance (f : Filter) : Decidable (Wf f) := by
  unfold Wf
  infer_instance

/-! ## Bit-level helper lemmas -/

theorem getD_set (l : List Nat) (w v i : Nat) :
    (l.set w v).getD i 0 = if w = i ∧ w < l.length then v else l.getD i 0 := by
  by_cases h : w = i
  · subst h
    by_cases hl : w < l.length
    · simp [List.getD_eq_getElem?_getD, List.getElem?_set_self hl, hl]
    · rw [List.set_eq_of_length_le (by omega)]
      simp [hl]
  · simp [List.getD_eq_getElem?_getD, List.getElem?_set_ne h, h]

theorem getBit_eq (bits : List Nat) (i : Nat) :
    getBit bits i = if (bits.getD (i / 64) 0).testBit (i % 64) then 1 else 0 := by
  have h6 : i >>> 6 = i / 64 := by
    rw [Nat.shiftRight_eq_div_pow]
  have h63 : i &&& 63 = i % 64 := by
    have : (63 : Nat) = 2 ^ 6 - 1 := by norm_num
    rw [this, Nat.and_pow_two_sub_one_eq_mod]
  rw [getBit, h6, h63, Nat.and_one_is_mod, Nat.shiftRight_eq_div_pow,
    Nat.testBit_to_div_mod]
  rcases Nat.mod_two_eq_zero_or_one (bits.getD (i / 64) 0 / 2 ^ (i % 64)) with h | h <;>
    rw [h] <;> simp

theorem setBit_eq (bits : List Nat) (i : Nat) :
    setBit bits i = bits.set (i / 64) (bits.getD (i / 64) 0 ||| 2 ^ (i % 64)) := by
  have h6 : i >>> 6 = i / 64 := by
    rw [Nat.shiftRight_eq_div_pow]
  have h63 : i &&& 63 = i % 64 := by
    have : (63 : Nat) = 2 ^ 6 - 1 := by norm_num
    rw [this, Nat.and_pow_two_sub_one_eq_mod]
  rw [setBit, h6, h63, Nat.one_shiftLeft]

theorem getBit_le_one (bits : List Nat) (i : Nat) : getBit bits i ≤ 1 := by
  rw [getBit_eq]
  split <;> omega

theorem length_setBit (bits : List Nat) (i : Nat) :
    (setBit bits i).length = bits.length := by
  rw [setBit_eq, List.length_set]

theorem getBit_setBit (bits : List Nat) (p j : Nat) (hp : p / 64 < bits.length) :
    getBit (setBit bits p) j = if j = p then 1 else getBit bits j := by
  rw [setBit_eq, getBit_eq, getBit_eq, getD_set]
  by_cases hj : j = p
  · subst hj
    have hcond : j / 64 = j / 64 ∧ j / 64 < bits.length := ⟨rfl, hp⟩
    rw [if_pos hcond, Nat.testBit_lor, Nat.testBit_two_pow_self, Bool.or_true]
    simp
  · rw [if_neg hj]
    by_cases hw : p / 64 = j / 64
    · have hcond : p / 64 = j / 64 ∧ p / 64 < bits.length := ⟨hw, hp⟩
      rw [if_pos hcond, hw, Nat.testBit_lor]
      have hb : p % 64 ≠ j % 64 := by
        have hp64 := Nat.div_add_mod p 64
        have hj64 := Nat.div_add_mod j 64
        intro hc
        exact hj (by omega)
      rw [Nat.testBit_two_pow_of_ne hb, Bool.or_false]
    · have hcond : ¬(p / 64 = j / 64 ∧ p / 64 < bits.length) := fun hc => hw hc.1
      rw [if_neg hcond]

/-- Word-wise bit containment between two bit arrays. -/
def BitsLe (a b : List Nat) : Prop :=
  ∀ i s, (a.getD i 0).testBit s = true → (b.getD i 0).testBit s = true

theorem bitsLe_refl (a : List Nat) : BitsLe a a := fun _ _ h => h

theorem bitsLe_trans {a b c : List Nat} (h1 : BitsLe a b) (h2 : BitsLe b c) :
    BitsLe a c := fun i s h => h2 i s (h1 i s h)

theorem bitsLe_getBit {a b : List Nat} (h : BitsLe a b) (j : Nat)
    (hj : getBit a j = 1) : getBit b j = 1 := by
  rw [getBit_eq] at hj ⊢
  by_cases ht : (a.getD (j / 64) 0).testBit (j % 64)
  · rw [if_pos (h _ _ ht)]
  · rw [if_neg ht] at hj
    omega

theorem bitsLe_setBit (a : List Nat) (p : Nat) : BitsLe a (setBit a p) := by
  intro i s h
  rw [setBit_eq, getD_set]
  split
  · next hw =>
    rw [Nat.testBit_lor]
    rw [← hw.1] at h
    rw [h]
    simp
  · exact h

theorem bitsLe_foldl_setBit (idx : Nat → Nat) (ks : List Nat) :
    ∀ a : List Nat, BitsLe a (ks.foldl (fun bs key => setBit bs (idx key)) a) := by
  induction ks with
  | nil => exact fun a => bitsLe_refl a
  | cons key ks ih =>
    intro a
    exact bitsLe_trans (bitsLe_setBit a (idx key)) (ih (setBit a (idx key)))

theorem unionWords_nil_left (b : List Nat) : unionWords [] b = [] := by
  simp [unionWords]

theorem unionWords_nil_right (a : List Nat) : unionWords a [] = a := by
  simp [unionWords]

theorem unionWords_cons (x y : Nat) (a b : List Nat) :
    unionWords (x :: a) (y :: b) = (x ||| y) :: unionWords a b := by
  simp [unionWords]

theorem bitsLe_unionWords (a : List Nat) :
    ∀ b : List Nat, BitsLe a (unionWords a b) := by
  induction a with
  | nil =>
    intro b i s h
    simp at h
  | cons x a ih =>
    intro b
    cases b with
    | nil => rw [unionWords_nil_right]; exact bitsLe_refl _
    | cons y b =>
      rw [unionWords_cons]
      intro i s h
      cases i with
      | zero =>
        rw [List.getD_cons_zero] at h ⊢
        rw [Nat.testBit_lor, h]
        simp
      | succ i =>
        rw [List.getD_cons_succ] at h ⊢
        exact ih b i s h

theorem unionWords_eq_zipWith {a b : List Nat} (h : a.length ≤ b.length) :
    unionWords a b = a.zipWith (· ||| ·) b := by
  rw [unionWords, List.drop_eq_nil_of_le h, List.append_nil]

/-! ## The query loop -/

theorem containsAllLoop_zero (m hash : Nat) (bits : List Nat) (ks : List Nat) :
    containsAllLoop m hash bits ks 0 = 0 := by
  induction ks with
  | nil => rfl
  | cons key ks ih =>
    rw [containsAllLoop, Nat.zero_and]
    exact ih

theorem containsLoop_eq_containsAllLoop (m hash : Nat) (bits : List Nat) :
    ∀ (ks : List Nat) (r : Nat),
      containsLoop m hash bits ks r = containsAllLoop m hash bits ks r := by
  intro ks
  induction ks with
  | nil => intro r; rfl
  | cons key ks ih =>
    intro r
    rw [containsLoop, containsAllLoop]
    by_cases hr : r = 0
    · rw [if_pos hr, hr, Nat.zero_and, containsAllLoop_zero]
    · rw [if_neg hr, ih]

theorem containsAllLoop_one (m hash : Nat) (bits : List Nat) :
    ∀ ks : List Nat,
      containsAllLoop m hash bits ks 1 =
        if ks.all (fun key => getBit bits ((hash ^^^ key) % m) == 1) then 1 else 0 := by
  intro ks
  induction ks with
  | nil => rfl
  | cons key ks ih =>
    rw [containsAllLoop, List.all_cons]
    have hle := getBit_le_one bits ((hash ^^^ key) % m)
    interval_cases hgb : getBit bits ((hash ^^^ key) % m)
    · rw [Nat.and_zero, containsAllLoop_zero]
      simp
    · rw [show (1 : Nat) &&& 1 = 1 from rfl, ih]
      simp

theorem ContainsHash_iff (f : Filter) (hash : Nat) :
    ContainsHash f hash = true ↔
      ∀ key ∈ f.keys, getBit f.bits ((hash ^^^ key) % f.m) = 1 := by
  rw [ContainsHash, uint64ToBool, containsLoop_eq_containsAllLoop, containsAllLoop_one]
  constructor
  · intro h key hk
    by_cases hall : f.keys.all (fun key => getBit f.bits ((hash ^^^ key) % f.m) == 1)
    · have := List.all_eq_true.mp hall key hk
      simpa using this
    · rw [if_neg hall] at h
      simp at h
  · intro h
    have hall : f.keys.all (fun key => getBit f.bits ((hash ^^^ key) % f.m) == 1) := by
      rw [List.all_eq_true]
      intro key hk
      simpa using h key hk
    rw [if_pos hall]
    simp

/-! ## The insertion loop -/

theorem getBit_foldl_setBit (m hash : Nat) (ks : List Nat) :
    ∀ (bits : List Nat), 0 < m → m ≤ 64 * bits.length → ∀ j,
      getBit (ks.foldl (fun bs key => setBit bs ((hash ^^^ key) % m)) bits) j =
        if ks.any (fun key => (hash ^^^ key) % m == j) then 1 else getBit bits j := by
  induction ks with
  | nil =>
    intro bits _ _ j
    simp
  | cons key ks ih =>
    intro bits hm hlen j
    rw [List.foldl_cons, List.any_cons]
    have hidx : ((hash ^^^ key) % m) / 64 < bits.length := by
      have h1 : (hash ^^^ key) % m < m := Nat.mod_lt _ hm
      have h2 : (hash ^^^ key) % m < 64 * bits.length := by omega
      omega
    have hlen2 : m ≤ 64 * (setBit bits ((hash ^^^ key) % m)).length := by
      rw [length_setBit]; exact hlen
    rw [ih (setBit bits ((hash ^^^ key) % m)) hm hlen2 j,
      getBit_setBit bits ((hash ^^^ key) % m) j hidx]
    by_cases hany : ks.any (fun key => (hash ^^^ key) % m == j)
    · rw [hany]
      simp
    · rw [eq_false_of_ne_true hany]
      by_cases heq : (hash ^^^ key) % m = j
      · rw [if_pos (heq ▸ rfl : j = (hash ^^^ key) % m)]
        have : ((hash ^^^ key) % m == j) = true := by simpa using heq
        rw [this]
        simp
      · have hcond : ¬j = (hash ^^^ key) % m := fun hc => heq hc.symm
        rw [if_neg hcond]
        have hbeq : ((hash ^^^ key) % m == j) = false := by simpa using heq
        rw [hbeq]
        simp

/-! ## Well-formedness consequences and operation-sequence invariants -/

theorem wf_m_pos {f : Filter} (hf : Wf f) : 0 < f.m := by
  have h1 : MMin ≤ f.m := hf.1
  have : MMin = 2 := rfl
  omega

theorem wf_m_le {f : Filter} (hf : Wf f) : f.m ≤ 64 * f.bits.length := by
  have h8 : f.bits.length = (f.m + 63) / 64 := hf.2.2.2.2.2.2.2.1
  have hdm := Nat.div_add_mod (f.m + 63) 64
  have hlt : (f.m + 63) % 64 < 64 := Nat.mod_lt _ (by omega)
  omega

/-- Operands of a `unionWith` step must themselves be well-formed
filters (as all constructed filters are); the other operations need no
side condition. -/
def opWf : FOp → Prop
  | FOp.unionWith g => Wf g
  | _ => True

instance (op : FOp) : Decidable (opWf op) := by
  cases op with
  | addHash h => exact isTrue trivial
  | unionInPlaceWith g => exact isTrue trivial
  | unionWith g => exact (inferInstance : Decidable (Wf g))

theorem length_foldl_setBit (idx : Nat → Nat) (ks : List Nat) :
    ∀ a : List Nat, (ks.foldl (fun bs key => setBit bs (idx key)) a).length = a.length := by
  induction ks with
  | nil => intro a; rfl
  | cons key ks ih =>
    intro a
    rw [List.foldl_cons, ih, length_setBit]

theorem length_unionWords (a b : List Nat) : (unionWords a b).length = a.length := by
  rw [unionWords, List.length_append, List.length_zipWith, List.length_drop]
  omega

theorem NewWithKeys_ok_inv {m : Nat} {keys : List Nat} {out : Filter}
    (h : NewWithKeys m keys = .ok out) :
    out = ⟨List.replicate ((m + 63) / 64) 0, keys, m, 0⟩ := by
  rw [NewWithKeys, newBits] at h
  by_cases hm : m < MMin
  · rw [if_pos hm] at h
    cases h
  · rw [if_neg hm] at h
    simp only [] at h
    rw [newKeysCopy] at h
    by_cases hu : (!uniqueKeys keys) = true
    · rw [if_pos hu] at h
      cases h
    · rw [if_neg hu, newKeysBlank] at h
      by_cases hl : keys.length < KMin
      · rw [if_pos hl] at h
        simp only [] at h
        cases h
      · rw [if_neg hl] at h
        simp only [] at h
        cases h
        rfl

theorem applyFOp_mono (g : Filter) (op : FOp)
    (hlen : g.bits.length = (g.m + 63) / 64) (hop : opWf op) :
    (applyFOp g op).keys = g.keys ∧ (applyFOp g op).m = g.m ∧
      (applyFOp g op).bits.length = (g.m + 63) / 64 ∧
      BitsLe g.bits (applyFOp g op).bits := by
  cases op with
  | addHash h =>
    refine ⟨rfl, rfl, ?_,
      bitsLe_foldl_setBit (fun key => (h ^^^ key) % g.m) g.keys g.bits⟩
    show (g.keys.foldl (fun bs key => setBit bs ((h ^^^ key) % g.m)) g.bits).length = _
    rw [length_foldl_setBit]
    exact hlen
  | unionInPlaceWith g2 =>
    simp only [applyFOp, UnionInPlace]
    by_cases hc : IsCompatible g g2
    · rw [if_pos hc]
      refine ⟨rfl, rfl, ?_, bitsLe_unionWords g.bits g2.bits⟩
      show (unionWords g.bits g2.bits).length = _
      rw [length_unionWords]
      exact hlen
    · rw [if_neg hc]
      exact ⟨rfl, rfl, hlen, bitsLe_refl g.bits⟩
  | unionWith g2 =>
    simp only [applyFOp, Union]
    by_cases hc : IsCompatible g g2
    · rw [if_pos hc]
      have hcc : g.m = g2.m ∧ g.keys = g2.keys := by simpa [IsCompatible] using hc
      cases hnw : NewWithKeys g.m g.keys with
      | error e =>
        simp only []
        exact ⟨trivial, trivial, hlen, bitsLe_refl g.bits⟩
      | ok out =>
        have hout := NewWithKeys_ok_inv hnw
        subst hout
        simp only []
        have hwf2 : Wf g2 := hop
        have hlg2 : g2.bits.length = (g.m + 63) / 64 := by
          rw [hwf2.2.2.2.2.2.2.2.1, hcc.1]
        have hEq : unionOutWords (List.replicate ((g.m + 63) / 64) 0) g.bits g2.bits =
            unionWords g.bits g2.bits := by
          rw [unionOutWords, unionWords,
            List.drop_eq_nil_of_le (by rw [List.length_replicate, hlg2]),
            List.drop_eq_nil_of_le (by rw [hlen, hlg2])]
        refine ⟨trivial, trivial, ?_, ?_⟩
        · show (unionOutWords (List.replicate ((g.m + 63) / 64) 0) g.bits g2.bits).length = _
          rw [hEq, length_unionWords]
          exact hlen
        · show BitsLe g.bits (unionOutWords (List.replicate ((g.m + 63) / 64) 0) g.bits g2.bits)
          rw [hEq]
          exact bitsLe_unionWords g.bits g2.bits
    · rw [if_neg hc]
      exact ⟨rfl, rfl, hlen, bitsLe_refl g.bits⟩

theorem applyFOps_cons (g : Filter) (op : FOp) (ops : List FOp) :
    applyFOps g (op :: ops) = applyFOps (applyFOp g op) ops := rfl

theorem applyFOps_mono (ops : List FOp) :
    ∀ g : Filter, g.bits.length = (g.m + 63) / 64 → (∀ op ∈ ops, opWf op) →
      (applyFOps g ops).keys = g.keys ∧ (applyFOps g ops).m = g.m ∧
        (applyFOps g ops).bits.length = (g.m + 63) / 64 ∧
        BitsLe g.bits (applyFOps g ops).bits := by
  induction ops with
  | nil => exact fun g hlen _ => ⟨rfl, rfl, hlen, bitsLe_refl g.bits⟩
  | cons op ops ih =>
    intro g hlen hops
    have h1 := applyFOp_mono g op hlen (hops op (List.mem_cons_self op ops))
    have h2 := ih (applyFOp g op)
      (by rw [h1.2.1]; exact h1.2.2.1)
      (fun op2 hop2 => hops op2 (List.mem_cons_of_mem op hop2))
    rw [applyFOps_cons]
    refine ⟨h2.1.trans h1.1, h2.2.1.trans h1.2.1, ?_,
      bitsLe_trans h1.2.2.2 h2.2.2.2⟩
    rw [h2.2.2.1, h1.2.1]

/-! ## Claim theorems -/

/-- Claim C1: no false negatives — after `AddHash(h)` (or `Add` of a value
hashing to `h`), `ContainsHash(h)` (and `Contains` of that value) returns
true immediately and after any further sequence of `Add`/`AddHash` calls
and unions — `UnionInPlace`, or `Union` continuing with its fresh output
— with (well-formed) compatible filters; incompatible unions error out
without changing the tracked filter. -/
theorem C1_no_false_negatives (f : Filter) (h : Nat) (ops : List FOp) (hf : Wf f)
    (hops : ∀ op ∈ ops, opWf op) :
    ContainsHash (applyFOps (AddHash f h) ops) h = true ∧
      Contains (applyFOps (Add f h) ops) h = true := by
  have hm : 0 < f.m := wf_m_pos hf
  have hlen : f.m ≤ 64 * f.bits.length := wf_m_le hf
  have hbase : ∀ key ∈ f.keys, getBit (AddHash f h).bits ((h ^^^ key) % f.m) = 1 := by
    intro key hk
    have hchar := getBit_foldl_setBit f.m h f.keys f.bits hm hlen ((h ^^^ key) % f.m)
    have hany : f.keys.any (fun key2 => (h ^^^ key2) % f.m == (h ^^^ key) % f.m) = true := by
      rw [List.any_eq_true]
      exact ⟨key, hk, by simp⟩
    rw [hany, if_pos rfl] at hchar
    exact hchar
  have hlen1 : (AddHash f h).bits.length = ((AddHash f h).m + 63) / 64 := by
    show (f.keys.foldl (fun bs key => setBit bs ((h ^^^ key) % f.m)) f.bits).length = _
    rw [length_foldl_setBit]
    exact hf.2.2.2.2.2.2.2.1
  have hinv := applyFOps_mono ops (AddHash f h) hlen1 hops
  have hmain : ContainsHash (applyFOps (AddHash f h) ops) h = true := by
    rw [ContainsHash_iff]
    intro key hk
    rw [hinv.1] at hk
    rw [hinv.2.1]
    show getBit (applyFOps (AddHash f h) ops).bits ((h ^^^ key) % (AddHash f h).m) = 1
    exact bitsLe_getBit hinv.2.2.2 _ (hbase key hk)
  exact ⟨hmain, hmain⟩

theorem C1_witness :
    Wf ⟨[0], [1, 2, 3], 64, 0⟩ ∧
      (∀ op ∈ [FOp.addHash 9, FOp.unionInPlaceWith ⟨[0], [1, 2, 3], 64, 0⟩,
          FOp.unionWith ⟨[8], [1, 2, 3], 64, 1⟩], opWf op) ∧
      (ContainsHash
          (applyFOps (AddHash ⟨[0], [1, 2, 3], 64, 0⟩ 42)
            [FOp.addHash 9, FOp.unionInPlaceWith ⟨[0], [1, 2, 3], 64, 0⟩,
              FOp.unionWith ⟨[8], [1, 2, 3], 64, 1⟩]) 42 = true ∧
        Contains
          (applyFOps (Add ⟨[0], [1, 2, 3], 64, 0⟩ 42)
            [FOp.addHash 9, FOp.unionInPlaceWith ⟨[0], [1, 2, 3], 64, 0⟩,
              FOp.unionWith ⟨[8], [1, 2, 3], 64, 1⟩]) 42 = true) :=
  ⟨by decide, by decide,
    C1_no_false_negatives ⟨[0], [1, 2, 3], 64, 0⟩ 42
      [FOp.addHash 9, FOp.unionInPlaceWith ⟨[0], [1, 2, 3], 64, 0⟩,
        FOp.unionWith ⟨[8], [1, 2, 3], 64, 1⟩] (by decide) (by decide)⟩

/-- Claim C2: `AddHash(h)` sets exactly the bits at indices
`(h XOR key_i) mod m` (bit `j` becomes 1 when some key maps to it, and is
unchanged otherwise), increments `elementCount` by exactly 1 even on
repeated insertion, and `Add` performs the identical update. -/
theorem C2_addhash_sets_exactly (f : Filter) (h : Nat) (hf : Wf f)
    (hn : f.n + 1 < 2 ^ 64) :
    (∀ j, getBit (AddHash f h).bits j =
        if f.keys.any (fun key => (h ^^^ key) % f.m == j) then 1 else getBit f.bits j) ∧
      (AddHash f h).n = f.n + 1 ∧
      Add f h = AddHash f h := by
  refine ⟨?_, ?_, rfl⟩
  · intro j
    exact getBit_foldl_setBit f.m h f.keys f.bits (wf_m_pos hf) (wf_m_le hf) j
  · show (f.n + 1) % 2 ^ 64 = f.n + 1
    exact Nat.mod_eq_of_lt hn

theorem C2_witness :
    Wf ⟨[0], [1, 2, 3], 64, 5⟩ ∧ (5 : Nat) + 1 < 2 ^ 64 ∧
      getBit (AddHash ⟨[0], [1, 2, 3], 64, 5⟩ 42).bits 43 =
        (if ([1, 2, 3] : List Nat).any (fun key => (42 ^^^ key) % 64 == 43) then 1
          else getBit [0] 43) ∧
      (AddHash ⟨[0], [1, 2, 3], 64, 5⟩ 42).n = 5 + 1 :=
  ⟨by decide, by decide,
    (C2_addhash_sets_exactly ⟨[0], [1, 2, 3], 64, 5⟩ 42 (by decide) (by decide)).1 43,
    (C2_addhash_sets_exactly ⟨[0], [1, 2, 3], 64, 5⟩ 42 (by decide) (by decide)).2.1⟩

/-- Claim C3: `ContainsHash(h)` is true iff every key's bit
`(h XOR key_i) mod m` is 1; the short-circuit loop agrees with testing
all `k` positions; and `Contains` returns the same as `ContainsHash` on
the value's hash. -/
theorem C3_containshash_iff (f : Filter) (h : Nat) :
    (ContainsHash f h = true ↔
        ∀ key ∈ f.keys, getBit f.bits ((h ^^^ key) % f.m) = 1) ∧
      ContainsHash f h = ContainsHashAllPositions f h ∧
      Contains f h = ContainsHash f h := by
  refine ⟨ContainsHash_iff f h, ?_, rfl⟩
  rw [ContainsHash, ContainsHashAllPositions, containsLoop_eq_containsAllLoop]

/-! ## Construction lemmas -/

theorem uniqueKeys_iff (ks : List Nat) : uniqueKeys ks = true ↔ ks.Nodup := by
  induction ks with
  | nil => simp [uniqueKeys]
  | cons k ks ih =>
    rw [uniqueKeys, Bool.and_eq_true, ih, List.nodup_cons]
    constructor
    · rintro ⟨h1, h2⟩
      refine ⟨fun hk => ?_, h2⟩
      have := List.all_eq_true.mp h1 k hk
      simp at this
    · rintro ⟨h1, h2⟩
      refine ⟨List.all_eq_true.mpr fun x hx => ?_, h2⟩
      have hne : x ≠ k := fun he => h1 (he ▸ hx)
      simpa using hne

theorem NewWithKeys_ok {m : Nat} {keys : List Nat} (hm : MMin ≤ m) (hk : keys ≠ [])
    (hnd : keys.Nodup) :
    NewWithKeys m keys = .ok ⟨List.replicate ((m + 63) / 64) 0, keys, m, 0⟩ := by
  have hu : uniqueKeys keys = true := (uniqueKeys_iff keys).mpr hnd
  have hlen : ¬keys.length < KMin := by
    have h1 : 0 < keys.length := List.length_pos.mpr hk
    have h2 : KMin = 1 := rfl
    omega
  rw [NewWithKeys, newBits, if_neg (Nat.not_lt.mpr hm), newKeysCopy, hu, newKeysBlank,
    if_neg hlen]
  rfl

theorem NewWithKeys_error (m : Nat) (keys : List Nat)
    (h : m < MMin ∨ keys.length < KMin ∨ ¬keys.Nodup) :
    ∃ e, NewWithKeys m keys = .error e ∧ isConfigurationError e = true := by
  by_cases hm : m < MMin
  · exact ⟨.mBelowMin, by simp [NewWithKeys, newBits, hm], rfl⟩
  · by_cases hu : uniqueKeys keys
    · have hnd : keys.Nodup := (uniqueKeys_iff keys).mp hu
      have hlen : keys.length < KMin := by
        rcases h with h | h | h
        · omega
        · exact h
        · exact absurd hnd h
      refine ⟨.kBelowMin, ?_, rfl⟩
      simp [NewWithKeys, newBits, hm, newKeysCopy, hu, newKeysBlank, hlen]
    · have huf : uniqueKeys keys = false := by simpa using hu
      refine ⟨.keysNotUnique, ?_, rfl⟩
      simp [NewWithKeys, newBits, hm, newKeysCopy, huf]

/-- Claim C4: for compatible filters, `UnionInPlace` succeeds, replacing
the receiver's bit array with the word-wise OR and its count with the
sum while leaving the argument unchanged (second component of the
returned pair), and `Union` succeeds with a fresh filter holding the OR
and the summed count while leaving both operands unchanged (the two
trailing components of the returned triple). -/
theorem C4_union_or (f f2 : Filter) (hf : Wf f) (hf2 : Wf f2)
    (hc : IsCompatible f f2 = true) (hn : f.n + f2.n < 2 ^ 64) :
    UnionInPlace f f2 =
        .ok (⟨f.bits.zipWith (· ||| ·) f2.bits, f.keys, f.m, f.n + f2.n⟩, f2) ∧
      Union f f2 =
        .ok (⟨f.bits.zipWith (· ||| ·) f2.bits, f.keys, f.m, f.n + f2.n⟩, f, f2) := by
  have hcc : f.m = f2.m ∧ f.keys = f2.keys := by
    simpa [IsCompatible] using hc
  have hlen : f.bits.length = f2.bits.length := by
    have h1 : f.bits.length = (f.m + 63) / 64 := hf.2.2.2.2.2.2.2.1
    have h2 : f2.bits.length = (f2.m + 63) / 64 := hf2.2.2.2.2.2.2.2.1
    rw [h1, h2, hcc.1]
  have hz : unionWords f.bits f2.bits = f.bits.zipWith (· ||| ·) f2.bits :=
    unionWords_eq_zipWith (le_of_eq hlen)
  have hmod : (f.n + f2.n) % 2 ^ 64 = f.n + f2.n := Nat.mod_eq_of_lt hn
  constructor
  · rw [UnionInPlace, if_pos hc, hz, hmod]
  · have hnew := NewWithKeys_ok hf.1 hf.2.2.2.1 hf.2.2.2.2.1
    rw [Union, if_pos hc, hnew]
    have hout : unionOutWords (List.replicate ((f.m + 63) / 64) 0) f.bits f2.bits =
        f.bits.zipWith (· ||| ·) f2.bits := by
      rw [unionOutWords, List.drop_eq_nil_of_le, List.append_nil]
      rw [List.length_replicate, hf2.2.2.2.2.2.2.2.1, ← hcc.1]
    show (Except.ok
        (⟨unionOutWords (List.replicate ((f.m + 63) / 64) 0) f.bits f2.bits,
          f.keys, f.m, (f.n + f2.n) % 2 ^ 64⟩, f, f2) :
        Except BFError (Filter × Filter × Filter)) =
      Except.ok (⟨f.bits.zipWith (· ||| ·) f2.bits, f.keys, f.m, f.n + f2.n⟩, f, f2)
    rw [hout, hmod]

theorem C4_witness :
    Wf ⟨[1], [3], 64, 2⟩ ∧ Wf ⟨[4], [3], 64, 5⟩ ∧
      IsCompatible ⟨[1], [3], 64, 2⟩ ⟨[4], [3], 64, 5⟩ = true ∧
      (2 : Nat) + 5 < 2 ^ 64 ∧
      UnionInPlace ⟨[1], [3], 64, 2⟩ ⟨[4], [3], 64, 5⟩ =
        .ok (⟨([1] : List Nat).zipWith (· ||| ·) [4], [3], 64, 2 + 5⟩, ⟨[4], [3], 64, 5⟩) ∧
      Union ⟨[1], [3], 64, 2⟩ ⟨[4], [3], 64, 5⟩ =
        .ok (⟨([1] : List Nat).zipWith (· ||| ·) [4], [3], 64, 2 + 5⟩, ⟨[1], [3], 64, 2⟩,
          ⟨[4], [3], 64, 5⟩) :=
  ⟨by decide, by decide, by decide, by decide,
    (C4_union_or ⟨[1], [3], 64, 2⟩ ⟨[4], [3], 64, 5⟩ (by decide) (by decide) (by decide)
      (by decide)).1,
    (C4_union_or ⟨[1], [3], 64, 2⟩ ⟨[4], [3], 64, 5⟩ (by decide) (by decide) (by decide)
      (by decide)).2⟩

/-- Claim C5: for incompatible filters (differing bit width or differing
key sequences), both `Union` and `UnionInPlace` fail with the
incompatibility error; the check runs before any state is touched, so in
this state-passing embedding the error return carries no updated filter
states — neither operand is mutated. -/
theorem C5_incompatible_rejected (f f2 : Filter)
    (hne : f.m ≠ f2.m ∨ f.keys ≠ f2.keys) :
    UnionInPlace f f2 = .error .incompatible ∧
      Union f f2 = .error .incompatible := by
  have hc : IsCompatible f f2 = false := by
    rcases hne with h | h <;> simp [IsCompatible, h]
  rw [UnionInPlace, Union, hc]
  exact ⟨rfl, rfl⟩

theorem C5_witness :
    ((64 : Nat) ≠ 128 ∨ ([1] : List Nat) ≠ [1]) ∧
      UnionInPlace ⟨[0], [1], 64, 0⟩ ⟨[0, 0], [1], 128, 0⟩ = .error .incompatible ∧
      Union ⟨[0], [1], 64, 0⟩ ⟨[0, 0], [1], 128, 0⟩ = .error .incompatible :=
  ⟨Or.inl (by decide),
    C5_incompatible_rejected ⟨[0], [1], 64, 0⟩ ⟨[0, 0], [1], 128, 0⟩ (Or.inl (by decide))⟩

/-- Claim C6: `New(m, k)` (with the CSPRNG draw of `k` keys supplied as
an oracle) fails with a configuration error whenever `m < 2` or `k < 1`
and succeeds for `m = 2, k = 1`; `NewWithKeys(m, keys)` fails with a
configuration error whenever `m < 2`, `len(keys) < 1`, or two keys are
equal, and otherwise returns the filter with bit width `m`, the given
keys, a zeroed bit array of `ceil(m/64)` words, and a zero count. -/
theorem C6_construction (m k : Nat) (randKeys keys : List Nat)
    (hrk : randKeys.length = k) :
    ((m < MMin ∨ k < KMin) →
        ∃ e, New m k randKeys = .error e ∧ isConfigurationError e = true) ∧
      (m = 2 → k = 1 → ∃ f0, New m k randKeys = .ok f0) ∧
      ((m < MMin ∨ keys.length < KMin ∨ ¬keys.Nodup) →
        ∃ e, NewWithKeys m keys = .error e ∧ isConfigurationError e = true) ∧
      (MMin ≤ m → keys ≠ [] → keys.Nodup →
        NewWithKeys m keys = .ok ⟨List.replicate ((m + 63) / 64) 0, keys, m, 0⟩) := by
  refine ⟨?_, ?_, NewWithKeys_error m keys, fun hm hk hnd => NewWithKeys_ok hm hk hnd⟩
  · intro hbad
    rcases hbad with hm | hk
    · exact NewWithKeys_error m randKeys (Or.inl hm)
    · have : randKeys.length < KMin := by omega
      exact NewWithKeys_error m randKeys (Or.inr (Or.inl this))
  · intro hm hk
    subst hm; subst hk
    obtain ⟨x, hx⟩ := List.length_eq_one.mp hrk
    subst hx
    exact ⟨_, NewWithKeys_ok (by decide) (by simp) (by simp)⟩

theorem C6_witness :
    ([99] : List Nat).length = 1 ∧
      (∃ e, New 1 1 [99] = .error e ∧ isConfigurationError e = true) ∧
      (∃ f0, New 2 1 [99] = .ok f0) ∧
      ([] : List Nat).length = 0 ∧
      (∃ e, New 2 0 [] = .error e ∧ isConfigurationError e = true) ∧
      (∃ e, NewWithKeys 2 [5, 5] = .error e ∧ isConfigurationError e = true) ∧
      NewWithKeys 2 [5] = .ok ⟨List.replicate ((2 + 63) / 64) 0, [5], 2, 0⟩ :=
  ⟨rfl,
    (C6_construction 1 1 [99] [5, 5] rfl).1 (Or.inl (by decide)),
    (C6_construction 2 1 [99] [5, 5] rfl).2.1 rfl rfl,
    rfl,
    (C6_construction 2 0 [] [5, 5] rfl).1 (Or.inr (by decide)),
    (C6_construction 2 0 [] [5, 5] rfl).2.2.1 (Or.inr (Or.inr (by decide))),
    (C6_construction 2 0 [] [5] rfl).2.2.2 (by decide) (by decide) (by decide)⟩

/-! ## Wire-codec lemmas -/

theorem toLE_length (c x : Nat) : (toLE c x).length = c := by
  induction c generalizing x with
  | zero => rfl
  | succ c ih => rw [toLE, List.length_cons, ih]

theorem toLE64_length (x : Nat) : (toLE64 x).length = 8 := toLE_length 8 x

theorem fromLE_toLE (c x : Nat) : fromLE (toLE c x) = x % 256 ^ c := by
  induction c generalizing x with
  | zero => simp [toLE, fromLE, Nat.mod_one]
  | succ c ih =>
    rw [toLE, fromLE, ih]
    rw [Nat.pow_succ, Nat.mul_comm (256 ^ c) 256, Nat.mod_mul]

theorem fromLE_toLE64 (x : Nat) : fromLE (toLE64 x) = x % 2 ^ 64 := by
  rw [toLE64, fromLE_toLE]
  norm_num

theorem fromLE_toLE64_of_lt {x : Nat} (hx : x < 2 ^ 64) : fromLE (toLE64 x) = x := by
  rw [fromLE_toLE64, Nat.mod_eq_of_lt hx]

theorem readFull_exact {pre : List Nat} {c : Nat} (hc : pre.length = c)
    (rest hs : List Nat) (t : Nat) :
    readFull c ⟨pre ++ rest, hs, t⟩ = some (pre, ⟨rest, hs ++ pre, t + c⟩) := by
  subst hc
  rw [readFull]
  have hle : pre.length ≤ (pre ++ rest).length := by
    rw [List.length_append]; omega
  rw [if_pos hle, List.take_left, List.drop_left]

theorem length_flatMap_toLE64 (ws : List Nat) :
    (ws.flatMap toLE64).length = 8 * ws.length := by
  induction ws with
  | nil => rfl
  | cons w ws ih =>
    rw [List.flatMap_cons, List.length_append, ih, toLE64_length, List.length_cons]
    ring

theorem decodeWords_flatMap {ws : List Nat} (hws : ∀ w ∈ ws, w < 2 ^ 64) :
    decodeWords ws.length (ws.flatMap toLE64) = ws := by
  induction ws with
  | nil => rfl
  | cons w ws ih =>
    rw [List.flatMap_cons, List.length_cons, decodeWords,
      List.take_append_of_le_length (by rw [toLE64_length]),
      List.drop_append_of_le_length (by rw [toLE64_length])]
    have h8 : (toLE64 w).take 8 = toLE64 w := by
      rw [List.take_of_length_le (by rw [toLE64_length])]
    have h8d : (toLE64 w).drop 8 = [] := by
      rw [List.drop_eq_nil_of_le (by rw [toLE64_length])]
    rw [h8, h8d, List.nil_append, fromLE_toLE64_of_lt (hws w (List.mem_cons_self w ws)),
      ih (fun x hx => hws x (List.mem_cons_of_mem w hx))]

theorem readBitsLoop_full :
    ∀ (count : Nat) (bytes rest hs : List Nat) (t : Nat) (bs : List Nat),
      bytes.length = 8 * count → bs.length = 8 →
      readBitsLoop count bs ⟨bytes ++ rest, hs, t⟩ =
        (decodeWords count bytes, ⟨rest, hs ++ bytes, t + 8 * count⟩, none) := by
  intro count
  induction count with
  | zero =>
    intro bytes rest hs t bs hb _
    have : bytes = [] := List.eq_nil_of_length_eq_zero (by omega)
    subst this
    simp [readBitsLoop, decodeWords]
  | succ c ih =>
    intro bytes rest hs t bs hb hbs
    have hbl : 8 ≤ bytes.length := by omega
    have hne : ¬(bytes ++ rest).isEmpty = true := by
      cases bytes with
      | nil =>
        rw [List.length_nil] at hb
        omega
      | cons b bs2 => simp
    rw [readBitsLoop, if_neg hne]
    have htake : (bytes ++ rest).take 8 = bytes.take 8 :=
      List.take_append_of_le_length hbl
    have htl : (bytes.take 8).length = 8 := by
      rw [List.length_take]; omega
    have hdrop : (bytes ++ rest).drop 8 = bytes.drop 8 ++ rest :=
      List.drop_append_of_le_length hbl
    have hbs1 : bs.drop 8 = [] := List.drop_eq_nil_of_le (by omega)
    simp only [htake, htl, hbs1, List.append_nil, hdrop]
    have hrec := ih (bytes.drop 8) rest (hs ++ bytes.take 8) (t + 8) (bytes.take 8)
      (by rw [List.length_drop]; omega) htl
    rw [hrec, decodeWords]
    have hhs : hs ++ bytes.take 8 ++ bytes.drop 8 = hs ++ bytes := by
      rw [List.append_assoc, List.take_append_drop]
    rw [hhs]
    have ht : t + 8 + 8 * c = t + 8 * (c + 1) := by ring
    rw [ht]

theorem readFull_all {s : List Nat} {c : Nat} (hc : s.length = c) (hs : List Nat) (t : Nat) :
    readFull c ⟨s, hs, t⟩ = some (s, ⟨[], hs ++ s, t + c⟩) := by
  subst hc
  rw [readFull, if_pos (le_refl _), List.take_length, List.drop_length]

theorem unmarshalBinaryHeader_ok {kb nb mb : List Nat} (rest hs : List Nat) (t : Nat)
    (hkb : kb.length = 8) (hnb : nb.length = 8) (hmb : mb.length = 8)
    (hk : KMin ≤ fromLE kb) (hm : MMin ≤ fromLE mb) :
    unmarshalBinaryHeader ⟨kb ++ (nb ++ (mb ++ rest)), hs, t⟩ =
      (fromLE kb, fromLE nb, fromLE mb,
        ⟨rest, hs ++ kb ++ nb ++ mb, t + 24⟩, none) := by
  have hk1 : ¬fromLE kb < KMin := Nat.not_lt.mpr hk
  have hm1 : ¬fromLE mb < MMin := Nat.not_lt.mpr hm
  simp only [unmarshalBinaryHeader, readFull_exact hkb, readFull_exact hnb,
    readFull_exact hmb, hk1, hm1, if_false, ite_false]

theorem unmarshalBinaryKeys_ok (keyws rest hs : List Nat) (t : Nat)
    (hkw : ∀ w ∈ keyws, w < 2 ^ 64) :
    unmarshalBinaryKeys ⟨keyws.flatMap toLE64 ++ rest, hs, t⟩ keyws.length =
      (keyws, ⟨rest, hs ++ keyws.flatMap toLE64, t + 8 * keyws.length⟩, none) := by
  rw [unmarshalBinaryKeys, readFull_exact (length_flatMap_toLE64 keyws)]
  simp only [decodeWords_flatMap hkw]

theorem unmarshalBinaryBits_ok (bitws rest hs : List Nat) (t m : Nat)
    (hm1 : MMin ≤ m) (hbl : bitws.length = (m + 63) / 64)
    (hbw : ∀ w ∈ bitws, w < 2 ^ 64) :
    unmarshalBinaryBits ⟨bitws.flatMap toLE64 ++ rest, hs, t⟩ m =
      (bitws, ⟨rest, hs ++ bitws.flatMap toLE64, t + 8 * bitws.length⟩, none) := by
  rw [unmarshalBinaryBits, newBits, if_neg (Nat.not_lt.mpr hm1)]
  simp only [List.length_replicate]
  rw [← hbl, readBitsLoop_full bitws.length (bitws.flatMap toLE64) rest hs t
    (List.replicate 8 0) (length_flatMap_toLE64 bitws) (by simp),
    decodeWords_flatMap hbw]

/-- The full success/integrity behaviour of `UnmarshalFromReader` on a
well-shaped stream: the header, keys and bit words are decoded exactly,
and the outcome is success or the integrity error according to whether
the stored digest matches the recomputed one. -/
theorem UnmarshalFromReader_parse (H : List Nat → List Nat) (f₀ : Filter)
    (k n m : Nat) (keyws bitws dig : List Nat)
    (hk1 : KMin ≤ k) (hk2 : k < 2 ^ 64) (hn : n < 2 ^ 64)
    (hm1 : MMin ≤ m) (hm2 : m < 2 ^ 64)
    (hkl : keyws.length = k) (hkw : ∀ w ∈ keyws, w < 2 ^ 64)
    (hbl : bitws.length = (m + 63) / 64) (hbw : ∀ w ∈ bitws, w < 2 ^ 64)
    (hdig : dig.length = 48) :
    UnmarshalFromReader H f₀
        (toLE64 k ++ (toLE64 n ++ (toLE64 m ++
          (keyws.flatMap toLE64 ++ (bitws.flatMap toLE64 ++ dig))))) =
      (⟨bitws, keyws, m, n⟩, 24 + 8 * k + 8 * bitws.length + 48,
        if H (toLE64 k ++ toLE64 n ++ toLE64 m ++ keyws.flatMap toLE64 ++
            bitws.flatMap toLE64) = dig
        then none else some .integrity) := by
  subst hkl
  have hkv : fromLE (toLE64 keyws.length) = keyws.length := fromLE_toLE64_of_lt hk2
  have hnv : fromLE (toLE64 n) = n := fromLE_toLE64_of_lt hn
  have hmv : fromLE (toLE64 m) = m := fromLE_toLE64_of_lt hm2
  have hhdr := unmarshalBinaryHeader_ok
    (keyws.flatMap toLE64 ++ (bitws.flatMap toLE64 ++ dig)) [] 0
    (toLE64_length keyws.length) (toLE64_length n) (toLE64_length m)
    (by rw [hkv]; exact hk1) (by rw [hmv]; exact hm1)
  rw [UnmarshalFromReader, hhdr, hkv, hnv, hmv]
  simp only []
  rw [unmarshalBinaryKeys_ok keyws (bitws.flatMap toLE64 ++ dig) _ _ hkw]
  simp only []
  rw [unmarshalBinaryBits_ok bitws dig _ _ m hm1 hbl hbw]
  simp only []
  rw [readFull_all hdig]
  simp only [List.nil_append]
  by_cases hh : H (toLE64 keyws.length ++ toLE64 n ++ toLE64 m ++
      keyws.flatMap toLE64 ++ bitws.flatMap toLE64) = dig
  · rw [if_pos hh, if_pos hh]
  · rw [if_neg hh, if_neg hh]

/-- Claim C7: round-trip — deserializing the serialization of any valid
filter succeeds (no error, all bytes consumed) and reproduces a filter
with identical bit width, key sequence, bit array and element count.
Holds for an arbitrary 48-byte digest function `H` standing in for
SHA-384. -/
theorem C7_roundtrip (H : List Nat → List Nat) (f : Filter) (hf : Wf f)
    (hH : ∀ s, (H s).length = 48) :
    UnmarshalFromReader H emptyFilter (MarshallToWriter H f) =
      (f, 24 + 8 * f.keys.length + 8 * f.bits.length + 48, none) := by
  obtain ⟨h1, h2, h3, h4, h5, h6, h7, h8, h9⟩ := hf
  have hmar : MarshallToWriter H f =
      toLE64 f.keys.length ++ (toLE64 f.n ++ (toLE64 f.m ++
        (f.keys.flatMap toLE64 ++ (f.bits.flatMap toLE64 ++
          H (toLE64 f.keys.length ++ toLE64 f.n ++ toLE64 f.m ++
            f.keys.flatMap toLE64 ++ f.bits.flatMap toLE64))))) := by
    rw [MarshallToWriter]
    simp only [List.append_assoc]
  rw [hmar, UnmarshalFromReader_parse H emptyFilter f.keys.length f.n f.m f.keys f.bits _
    (List.length_pos.mpr h4) h9 h3 h1 h2 rfl h6 h8 h7 (hH _)]
  rw [if_pos rfl]

theorem C7_witness :
    Wf ⟨[5], [3], 64, 2⟩ ∧
      UnmarshalFromReader (fun _ => List.replicate 48 0) emptyFilter
          (MarshallToWriter (fun _ => List.replicate 48 0) ⟨[5], [3], 64, 2⟩) =
        (⟨[5], [3], 64, 2⟩, 24 + 8 * 1 + 8 * 1 + 48, none) :=
  ⟨by decide,
    C7_roundtrip (fun _ => List.replicate 48 0) ⟨[5], [3], 64, 2⟩ (by decide)
      (fun s => by simp)⟩

/-- Claim C8: deserialization fails fast with the `FormatError`s — on a
decoded key count below 1 after exactly the first 8 header bytes, and on
a decoded bit width below 2 after exactly the 24 header bytes, in both
cases before any key or bit-array bytes are consumed — and on any
well-shaped stream whose trailing 48-byte stored digest differs from the
digest recomputed over header, keys and bits it fails with the
`IntegrityError` instead of succeeding. -/
theorem C8_deserialize_errors (H : List Nat → List Nat) (f₀ : Filter)
    (kb nb mb rest : List Nat) (k n m : Nat) (keyws bitws dig : List Nat) :
    (kb.length = 8 → fromLE kb < KMin →
      UnmarshalFromReader H f₀ (kb ++ rest) =
        ({ f₀ with n := 0, m := 0 }, 8, some .formatK)) ∧
    (kb.length = 8 → nb.length = 8 → mb.length = 8 → KMin ≤ fromLE kb →
      fromLE mb < MMin →
      UnmarshalFromReader H f₀ (kb ++ (nb ++ (mb ++ rest))) =
        ({ f₀ with n := fromLE nb, m := fromLE mb }, 24, some .formatM)) ∧
    (KMin ≤ k → k < 2 ^ 64 → n < 2 ^ 64 → MMin ≤ m → m < 2 ^ 64 →
      keyws.length = k → (∀ w ∈ keyws, w < 2 ^ 64) →
      bitws.length = (m + 63) / 64 → (∀ w ∈ bitws, w < 2 ^ 64) →
      dig.length = 48 →
      H (toLE64 k ++ toLE64 n ++ toLE64 m ++ keyws.flatMap toLE64 ++
          bitws.flatMap toLE64) ≠ dig →
      UnmarshalFromReader H f₀
          (toLE64 k ++ (toLE64 n ++ (toLE64 m ++
            (keyws.flatMap toLE64 ++ (bitws.flatMap toLE64 ++ dig))))) =
        (⟨bitws, keyws, m, n⟩, 24 + 8 * k + 8 * bitws.length + 48,
          some .integrity)) := by
  refine ⟨?_, ?_, ?_⟩
  · intro hkb hk
    have hh : unmarshalBinaryHeader ⟨kb ++ rest, [], 0⟩ =
        (fromLE kb, 0, 0, ⟨rest, [] ++ kb, 0 + 8⟩, some .formatK) := by
      rw [unmarshalBinaryHeader, readFull_exact hkb]
      simp only []
      rw [if_pos hk]
    rw [UnmarshalFromReader, hh]
  · intro hkb hnb hmb hk hm
    have hh : unmarshalBinaryHeader ⟨kb ++ (nb ++ (mb ++ rest)), [], 0⟩ =
        (fromLE kb, fromLE nb, fromLE mb,
          ⟨rest, [] ++ kb ++ nb ++ mb, 0 + 8 + 8 + 8⟩, some .formatM) := by
      rw [unmarshalBinaryHeader, readFull_exact hkb]
      simp only []
      rw [if_neg (Nat.not_lt.mpr hk), readFull_exact hnb]
      simp only []
      rw [readFull_exact hmb]
      simp only []
      rw [if_pos hm]
    rw [UnmarshalFromReader, hh]
  · intro hk1 hk2 hn hm1 hm2 hkl hkw hbl hbw hdig hne
    rw [UnmarshalFromReader_parse H f₀ k n m keyws bitws dig hk1 hk2 hn hm1 hm2 hkl
      hkw hbl hbw hdig]
    rw [if_neg hne]

theorem C8_witness :
    UnmarshalFromReader (fun _ => List.replicate 48 0) emptyFilter (toLE64 0 ++ []) =
        ({ emptyFilter with n := 0, m := 0 }, 8, some .formatK) ∧
      UnmarshalFromReader (fun _ => List.replicate 48 0) emptyFilter
          (toLE64 1 ++ (toLE64 0 ++ (toLE64 1 ++ []))) =
        ({ emptyFilter with n := fromLE (toLE64 0), m := fromLE (toLE64 1) }, 24,
          some .formatM) ∧
      UnmarshalFromReader (fun _ => List.replicate 48 0) emptyFilter
          (toLE64 1 ++ (toLE64 0 ++ (toLE64 64 ++
            (([3] : List Nat).flatMap toLE64 ++
              (([0] : List Nat).flatMap toLE64 ++ List.replicate 48 1))))) =
        (⟨[0], [3], 64, 0⟩, 24 + 8 * 1 + 8 * 1 + 48, some .integrity) :=
  ⟨(C8_deserialize_errors (fun _ => List.replicate 48 0) emptyFilter
      (toLE64 0) [] [] [] 0 0 0 [] [] []).1 (by decide) (by decide),
    (C8_deserialize_errors (fun _ => List.replicate 48 0) emptyFilter
      (toLE64 1) (toLE64 0) (toLE64 1) [] 0 0 0 [] [] []).2.1
      (by decide) (by decide) (by decide) (by decide) (by decide),
    (C8_deserialize_errors (fun _ => List.replicate 48 0) emptyFilter
      [] [] [] [] 1 0 64 [3] [0] (List.replicate 48 1)).2.2
      (by decide) (by decide) (by decide) (by decide) (by decide) (by decide)
      (by decide) (by decide) (by decide) (by decide) (by decide)⟩

/-- Claim C10: `Filter.ReadFrom` decodes into a fresh filter first, so on
any error (decompressor failure, format error, read error, or digest
mismatch) the receiver's fields are returned untouched; the receiver is
replaced only when the whole read succeeded. -/
theorem C10_readfrom_atomic (H : List Nat → List Nat)
    (gunzip : List Nat → Except BFError (List Nat)) (f : Filter) (input : List Nat) :
    (∀ e, (FilterReadFrom H gunzip f input).2.1 = some e →
      (FilterReadFrom H gunzip f input).2.2 = f) ∧
    (∀ f2 cnt, ReadFrom H gunzip input = .ok (f2, cnt) →
      FilterReadFrom H gunzip f input =
        ((cnt : Int), none,
          { f with m := f2.m, n := f2.n, bits := f2.bits, keys := f2.keys })) := by
  cases hr : ReadFrom H gunzip input with
  | error e0 =>
    constructor
    · intro e _
      rw [FilterReadFrom, hr]
    · intro f2 cnt hc
      cases hc
  | ok p =>
    constructor
    · intro e he
      rw [FilterReadFrom, hr] at he
      cases he
    · intro f2 cnt hc
      cases hc
      rw [FilterReadFrom, hr]

theorem C10_witness :
    (FilterReadFrom (fun _ => List.replicate 48 0) (fun _ => .error .readFailure)
        ⟨[1], [2], 64, 3⟩ []).2.2 = ⟨[1], [2], 64, 3⟩ ∧
      FilterReadFrom (fun _ => List.replicate 48 0)
          (fun _ => .ok (MarshallToWriter (fun _ => List.replicate 48 0) ⟨[5], [3], 64, 2⟩))
          ⟨[1], [2], 64, 3⟩ [] =
        ((88 : Int), none, ⟨[5], [3], 64, 2⟩) :=
  ⟨(C10_readfrom_atomic (fun _ => List.replicate 48 0) (fun _ => .error .readFailure)
      ⟨[1], [2], 64, 3⟩ []).1 .readFailure (by decide),
    (C10_readfrom_atomic (fun _ => List.replicate 48 0)
      (fun _ => .ok (MarshallToWriter (fun _ => List.replicate 48 0) ⟨[5], [3], 64, 2⟩))
      ⟨[1], [2], 64, 3⟩ []).2 ⟨[5], [3], 64, 2⟩ 88 rfl⟩

end Bloomfilter
